import Mathlib

/-!
Verification development for a small educational-resource recommendation
backend (`src/app.py`).  The Python functions are shallowly embedded as
executable Lean definitions; machine strings are Lean `String`s, JSON
values are the inductive `JVal`, and the whole-document activity store is
an association list from email to user record, mirroring a JSON object.

Python's `str.strip` and `str.lower` are modelled at ASCII level
(`pyStrip`, `pyLower`); all data handled by the program is ASCII.
-/

/-- Whitespace test on a character, modelling the ASCII part of Python's
`str.strip` default character class (space, tab, LF, VT, FF, CR). -/
def isSpaceCh (c : Char) : Bool :=
  c.toNat = 32 || c.toNat = 9 || c.toNat = 10 || c.toNat = 11 || c.toNat = 12 || c.toNat = 13

/-- ASCII lower-casing of one character, modelling Python `str.lower`. -/
def lowerChar (c : Char) : Char :=
  if 65 ≤ c.toNat ∧ c.toNat ≤ 90 then Char.ofNat (c.toNat + 32) else c

/-- Model of Python `str.lower` (ASCII). -/
def pyLower (s : String) : String :=
  ⟨s.data.map lowerChar⟩

/-- Model of Python `str.strip()` on a character list: drop whitespace from
the front, then from the back. -/
def pyStripL (l : List Char) : List Char :=
  (l.dropWhile isSpaceCh).rdropWhile isSpaceCh

/-- Model of Python `str.strip()` (ASCII whitespace). -/
def pyStrip (s : String) : String :=
  ⟨pyStripL s.data⟩

/-- JSON-ish values appearing in request bodies (`data` dicts). -/
inductive JVal where
  | null
  | str (s : String)
  | num (n : Int)
  | arr (xs : List JVal)

/-- Python truthiness of a `JVal` (`None`, `""`, `0`, `[]` are falsy). -/
def truthy : JVal → Bool
  | JVal.null => false
  | JVal.str s => !(s == "")
  | JVal.num n => !(n == 0)
  | JVal.arr xs => !xs.isEmpty

/-- `data.get(key)` on a parsed JSON object, modelled as an assoc list. -/
def jGet (body : List (String × JVal)) (key : String) : Option JVal :=
  (body.find? (fun p => p.1 == key)).map (fun p => p.2)

/-- A catalog resource (an element of `SAMPLE_RESOURCES`). -/
structure Resource where
  title : String
  description : String
  link : String
  tags : List String
deriving DecidableEq

/-- A scored output item: all resource fields except `tags`, plus `score`
(dict built at `app.py:61-62`). -/
structure Item where
  title : String
  description : String
  link : String
  score : Nat
deriving DecidableEq

/-- The fixed five-entry catalog `SAMPLE_RESOURCES` of `app.py`. -/
def SAMPLE_RESOURCES : List Resource :=
  [ ⟨"Flask Basics", "Learn web development with Flask",
      "https://flask.palletsprojects.com/", ["python", "web", "flask"]⟩,
    ⟨"Django Overview", "Batteries-included web framework",
      "https://www.djangoproject.com/", ["python", "web", "django"]⟩,
    ⟨"Pandas Intro", "Data analysis library",
      "https://pandas.pydata.org/", ["python", "data", "pandas"]⟩,
    ⟨"React Docs", "Build UIs with React",
      "https://react.dev/", ["javascript", "react", "frontend"]⟩,
    ⟨"Node.js Guides", "Server-side JS runtime",
      "https://nodejs.org/en/learn", ["javascript", "node", "backend"]⟩ ]

/-- One entry of the topic normalization set comprehension at `app.py:51`:
keeps a topic only if it is a string whose strip is non-empty, and yields
its stripped, lower-cased form. -/
def normTopic : JVal → Option String
  | JVal.str s => if pyStrip s = "" then none else some (pyLower (pyStrip s))
  | _ => none

/-- The normalized topic set of `app.py:51`, as a deduplicated list (the
scorer only ever uses membership and emptiness of this set). -/
def normalized_topics (topics : List JVal) : List String :=
  (topics.filterMap normTopic).dedup

/-- The lowercased tag set of a resource (`app.py:57`), as a deduplicated
list. -/
def tagSet (r : Resource) : List String :=
  (r.tags.map pyLower).dedup

/-- `len(tags.intersection(normalized_topics))` (`app.py:58`): the number
of distinct lowercased tags of `r` that belong to the set `nt`. -/
def interScore (r : Resource) (nt : List String) : Nat :=
  ((tagSet r).filter (fun tag => tag ∈ nt)).length

/-- Lexicographic comparison of character lists by code point, modelling
Python's string comparison (which the `sorted` calls rely on). -/
def charsLe : List Char → List Char → Bool
  | [], _ => true
  | _ :: _, [] => false
  | a :: as, b :: bs =>
    if a.toNat < b.toNat then true
    else if b.toNat < a.toNat then false
    else charsLe as bs

/-- Python's `≤` on strings: lexicographic by code point. -/
def strLe (s t : String) : Prop := charsLe s.data t.data = true

instance : DecidableRel strLe := fun s t => by
  unfold strLe; infer_instance

/-- Comparator of the sort key `(-score, title)` used at `app.py:65` and
`app.py:214`: higher score first, ties by ascending title. -/
def itemLe (a b : Item) : Prop :=
  b.score < a.score ∨ (a.score = b.score ∧ strLe a.title b.title)

instance : DecidableRel itemLe := fun a b => by
  unfold itemLe; infer_instance

/-- `score_resources_by_topics` (`app.py:49-66`): normalize topics, return
`[]` on an empty normalized set, otherwise keep each resource with a
positive overlap score (all fields but `tags`, plus `score`) and sort by
`(-score, title)`. -/
def score_resources_by_topics (resources : List Resource) (topics : List JVal) :
    List Item :=
  let nt := normalized_topics topics
  if nt = [] then []
  else
    List.insertionSort itemLe
      (resources.filterMap (fun r =>
        if 0 < interScore r nt then
          some ⟨r.title, r.description, r.link, interScore r nt⟩
        else none))

/-- A per-user activity record, one value of the persisted JSON document. -/
structure UserRec where
  topics : List String
  completed : List String
  points : Int
deriving DecidableEq

/-- The default record `{'topics': [], 'completed': [], 'points': 0}` used
whenever `data.get(email)` is absent. -/
def defaultUser : UserRec := ⟨[], [], 0⟩

/-- The whole activity document, a JSON object keyed by email; modelled as
an association list preserving dict insertion order. -/
abbrev Store : Type := List (String × UserRec)

/-- `data.get(email) or {...}` : look the user up, defaulting. -/
def storeGet : Store → String → UserRec
  | [], _ => defaultUser
  | (k, v) :: rest, email => if k = email then v else storeGet rest email

/-- `data[email] = user` on a Python dict: replace in place if the key
exists, else append. -/
def storeSet : Store → String → UserRec → Store
  | [], email, u => [(email, u)]
  | (k, v) :: rest, email, u =>
    if k = email then (email, u) :: rest else (k, v) :: storeSet rest email u

/-- `record_user_topics` (`app.py:125-132`): append every valid topic
(string with non-empty strip), stripped and lower-cased, to the user's
topic history, then store the record. -/
def record_user_topics (data : Store) (email : String) (topics : List JVal) : Store :=
  let user := storeGet data email
  storeSet data email
    { user with topics := user.topics ++ topics.filterMap normTopic }

/-- One step of the counting loop at `app.py:138-139`:
`counts[t] = counts.get(t, 0) + 1` on an insertion-ordered dict. -/
def bump : List (String × Nat) → String → List (String × Nat)
  | [], t => [(t, 1)]
  | (k, n) :: rest, t =>
    if k = t then (k, n + 1) :: rest else (k, n) :: bump rest t

/-- The frequency dict derived from a topic history (`app.py:137-139`). -/
def topicCounts (topics : List String) : List (String × Nat) :=
  topics.foldl bump []

/-- `get_user_topic_counts` (`app.py:134-140`). -/
def get_user_topic_counts (data : Store) (email : String) : List (String × Nat) :=
  topicCounts (storeGet data email).topics

/-- `record_completion` (`app.py:142-152`): add the title to the completed
set if absent (awarding `points_award` exactly then), store the set back
sorted, and return the updated record together with the saved store. -/
def record_completion (data : Store) (email title : String) (points_award : Int) :
    UserRec × Store :=
  let user := storeGet data email
  let completed := user.completed.dedup
  let user' : UserRec :=
    { user with
      completed := List.insertionSort strLe (if title ∈ completed then completed else title :: completed),
      points := if title ∈ completed then user.points else user.points + points_award }
  (user', storeSet data email user')

/-- The keys of a frequency dict (`tag in user_counts` tests these). -/
def countKeys (counts : List (String × Nat)) : List String :=
  counts.map (fun p => p.1)

/-- The history-boost block of `/recommend` (`app.py:202-215`): walk the
catalog, keep each resource already present in `recs` (matched by title),
add `1` to its score when any of its lowercased tags is a key of
`user_counts`, and re-sort with the `(-score, title)` comparator. -/
def history_boost (recs : List Item) (user_counts : List (String × Nat)) : List Item :=
  List.insertionSort itemLe
    (SAMPLE_RESOURCES.filterMap (fun r =>
      (recs.find? (fun x => x.title = r.title)).map (fun base =>
        { base with
          score := base.score +
            (if (tagSet r).any (fun tag => tag ∈ countKeys user_counts) then 1 else 0) })))

/-- Lines 192-215 of `/recommend`: record the topics and read the counts
when an email was supplied, score the catalog, and boost when the counts
are non-empty.  Returns the recommendation list and the updated store. -/
def recommendLogic (data : Store) (email : String) (topics : List JVal) :
    List Item × Store :=
  let p : List (String × Nat) × Store :=
    if email = "" then ([], data)
    else
      let data' := record_user_topics data email topics
      (get_user_topic_counts data' email, data')
  let recs := score_resources_by_topics SAMPLE_RESOURCES topics
  (if p.1 = [] then recs else history_boost recs p.1, p.2)

/-- Outcome of the `/recommend` handler: a 400 response or a payload of
recommendations (the best-effort video list is out of scope). -/
inductive RecResult where
  | badRequest
  | ok (recs : List Item) (data : Store)

/-- `True` exactly on the 400 branch of `/recommend`. -/
def isBad : RecResult → Bool
  | RecResult.badRequest => true
  | RecResult.ok _ _ => false

/-- `(data.get('email') or '').strip().lower()` (`app.py:185`), for bodies
whose `email` field is a string or falsy.  (For a truthy non-string value
the source raises before answering; such bodies are outside the modelled
domain, and theorems about the handler assume `emailOk`.) -/
def emailOf (body : List (String × JVal)) : String :=
  match jGet body "email" with
  | some (JVal.str s) => pyLower (pyStrip s)
  | _ => ""

/-- Bodies on which `emailOf` is a faithful model of `app.py:185`. -/
def emailOk (body : List (String × JVal)) : Bool :=
  match jGet body "email" with
  | none => true
  | some (JVal.str _) => true
  | some v => !truthy v

/-- The `/recommend` handler (`app.py:168-222`, without the best-effort
video enrichment): take `topics` (defaulting to `[]`), replace a falsy
`topics` by `[data['topic']]` when `topic` is a string, answer 400 when
the result is not a list, and otherwise run the recommendation logic. -/
def recommend (data : Store) (body : List (String × JVal)) : RecResult :=
  let email := emailOf body
  let topics0 := (jGet body "topics").getD (JVal.arr [])
  let topics1 :=
    if truthy topics0 then topics0
    else
      match jGet body "topic" with
      | some (JVal.str s) => JVal.arr [JVal.str s]
      | _ => topics0
  match topics1 with
  | JVal.arr xs =>
    let p := recommendLogic data email xs
    RecResult.ok p.1 p.2
  | _ => RecResult.badRequest

/-- The `/complete` handler (`app.py:224-232`) applied to the extracted
string fields: normalize email and title, answer 400 (`none`) when either
is empty, else record the completion and answer points and completed. -/
def completeCore (data : Store) (emailRaw titleRaw : String) :
    Option (Int × List String) × Store :=
  let email := pyLower (pyStrip emailRaw)
  let title := pyStrip titleRaw
  if email = "" ∨ title = "" then (none, data)
  else
    let p := record_completion data email title 10
    (some (p.1.points, p.1.completed), p.2)

/-- Comparator of the sort key `(count, topic)` used at `app.py:271`. -/
def countLe (a b : String × Nat) : Prop :=
  a.2 < b.2 ∨ (a.2 = b.2 ∧ strLe a.1 b.1)

instance : DecidableRel countLe := fun a b => by
  unfold countLe; infer_instance

/-- The `/next-topic` handler (`app.py:261-272`) given an already
non-empty email: `"python"` for an empty counts dict, else the first
component of the least `(count, topic)` pair.  (`items[0]` cannot fall
back to the default: the sorted list is non-empty whenever it is read.) -/
def next_topic (data : Store) (email : String) : String :=
  let counts := get_user_topic_counts data email
  if counts = [] then "python"
  else ((List.insertionSort countLe counts).headD ("python", 0)).1

/-- One row of the `/admin/popular` response. -/
structure PopItem where
  title : String
  completed : Nat
deriving DecidableEq

/-- Comparator of the sort key `(-completed, title)` used at `app.py:281`. -/
def popLe (a b : PopItem) : Prop :=
  b.completed < a.completed ∨ (a.completed = b.completed ∧ strLe a.title b.title)

instance : DecidableRel popLe := fun a b => by
  unfold popLe; infer_instance

/-- The title-count dict built by `/admin/popular` (`app.py:277-280`). -/
def countByTitle (data : Store) : List (String × Nat) :=
  data.foldl (fun acc q => q.2.completed.foldl bump acc) []

/-- The `/admin/popular` handler (`app.py:274-282`): count completions by
title across all users and sort by `(-completed, title)`. -/
def admin_popular (data : Store) : List PopItem :=
  List.insertionSort popLe
    ((countByTitle data).map (fun p => ⟨p.1, p.2⟩))

/-- A call of one of the two store-mutating recording operations. -/
inductive Op where
  | completion (email title : String)
  | search (email : String) (topics : List JVal)

/-- Apply one recording operation to the store (`record_completion` with
the default award, or `record_user_topics`). -/
def applyOp (data : Store) : Op → Store
  | Op.completion email title => (record_completion data email title 10).2
  | Op.search email topics => record_user_topics data email topics

/-- The store reached from the empty document by a sequence of recording
operations. -/
def applyOps (ops : List Op) : Store :=
  ops.foldl applyOp []

/-- `counts.get(k, 0)` on a frequency dict. -/
def lookupCount : List (String × Nat) → String → Nat
  | [], _ => 0
  | (k0, n) :: rest, k => if k0 = k then n else lookupCount rest k

/-- How many users of the store have `title` in their completed list. -/
def usersCompleted (data : Store) (title : String) : Nat :=
  (data.filter (fun q => title ∈ q.2.completed)).length

/-- `isinstance(v, list)`. -/
def isArr : JVal → Bool
  | JVal.arr _ => true
  | _ => false

/-- `isinstance(v, str)` on an optional value (absent keys are not
strings). -/
def isStrOpt : Option JVal → Bool
  | some (JVal.str _) => true
  | _ => false

/-- The exact condition under which `/recommend` answers 400: a `topics`
value is present, is not a list, and is not replaced by the
single-`topic` fallback (which fires only when `topics` is falsy and
`topic` is a string). -/
def topicsRejected (body : List (String × JVal)) : Bool :=
  match jGet body "topics" with
  | none => false
  | some v => !isArr v && (truthy v || !isStrOpt (jGet body "topic"))

/-- The per-record invariant maintained by the recording operations:
points are ten times the number of distinct completed titles, and the
completed list is duplicate-free and sorted. -/
def GoodU (u : UserRec) : Prop :=
  u.points = 10 * (u.completed.length : Int) ∧ u.completed.Nodup ∧
    u.completed.Sorted strLe

/-! ## Order-theoretic facts about the comparators -/

theorem charsLe_total : ∀ s t : List Char, charsLe s t = true ∨ charsLe t s = true
  | [], _ => Or.inl rfl
  | _ :: _, [] => Or.inr rfl
  | a :: as, b :: bs => by
    rcases Nat.lt_trichotomy a.toNat b.toNat with h | h | h
    · left; simp [charsLe, h]
    · have := charsLe_total as bs
      rcases this with h2 | h2
      · left; simp [charsLe, h, h2]
      · right; simp [charsLe, h.symm, h2]
    · right; simp [charsLe, h]

theorem charsLe_trans : ∀ s t u : List Char,
    charsLe s t = true → charsLe t u = true → charsLe s u = true
  | [], _, _ => by intro _ _; rfl
  | a :: as, [], _ => by intro h _; simp [charsLe] at h
  | a :: as, b :: bs, [] => by intro _ h; simp [charsLe] at h
  | a :: as, b :: bs, c :: cs => by
    intro h1 h2
    simp only [charsLe] at *
    rcases Nat.lt_trichotomy a.toNat b.toNat with hab | hab | hab <;>
      rcases Nat.lt_trichotomy b.toNat c.toNat with hbc | hbc | hbc <;>
      simp_all <;> try omega
    all_goals {
      rcases Nat.lt_trichotomy a.toNat c.toNat with hac | hac | hac
      all_goals simp_all
      exact charsLe_trans as bs cs h1 h2 }

theorem charToNat_inj {a b : Char} (h : a.toNat = b.toNat) : a = b :=
  Char.ext (UInt32.ext h)

theorem charsLe_antisymm : ∀ s t : List Char,
    charsLe s t = true → charsLe t s = true → s = t
  | [], [] => by intro _ _; rfl
  | [], _ :: _ => by intro _ h; simp [charsLe] at h
  | _ :: _, [] => by intro h _; simp [charsLe] at h
  | a :: as, b :: bs => by
    intro h1 h2
    simp only [charsLe] at h1 h2
    by_cases hab : a.toNat < b.toNat
    · have hba : ¬ b.toNat < a.toNat := by omega
      simp [hab, hba] at h2
    · by_cases hba : b.toNat < a.toNat
      · simp [hab, hba] at h1
      · have heq : a.toNat = b.toNat := by omega
        simp [hab, hba] at h1 h2
        rw [charToNat_inj heq, charsLe_antisymm as bs h1 h2]

theorem strLe_total (s t : String) : strLe s t ∨ strLe t s :=
  charsLe_total s.data t.data

theorem strLe_trans {s t u : String} (h1 : strLe s t) (h2 : strLe t u) : strLe s u :=
  charsLe_trans s.data t.data u.data h1 h2

theorem strLe_antisymm {s t : String} (h1 : strLe s t) (h2 : strLe t s) : s = t := by
  cases s; cases t
  exact congrArg String.mk (charsLe_antisymm _ _ h1 h2)

theorem strLe_refl (s : String) : strLe s s := by
  rcases strLe_total s s with h | h <;> exact h

instance : IsTotal String strLe := ⟨strLe_total⟩

instance : IsTrans String strLe := ⟨fun _ _ _ => strLe_trans⟩

instance : IsTotal Item itemLe :=
  ⟨fun a b => by
    unfold itemLe
    rcases Nat.lt_trichotomy a.score b.score with h | h | h
    · exact Or.inr (Or.inl h)
    · rcases strLe_total a.title b.title with ht | ht
      · exact Or.inl (Or.inr ⟨h, ht⟩)
      · exact Or.inr (Or.inr ⟨h.symm, ht⟩)
    · exact Or.inl (Or.inl h)⟩

instance : IsTrans Item itemLe :=
  ⟨fun a b c hab hbc => by
    unfold itemLe at *
    rcases hab with h1 | ⟨h1, t1⟩ <;> rcases hbc with h2 | ⟨h2, t2⟩
    · exact Or.inl (h2.trans h1)
    · exact Or.inl (h2 ▸ h1)
    · exact Or.inl (h1 ▸ h2)
    · exact Or.inr ⟨h1.trans h2, strLe_trans t1 t2⟩⟩

instance : IsTotal (String × Nat) countLe :=
  ⟨fun a b => by
    unfold countLe
    rcases Nat.lt_trichotomy a.2 b.2 with h | h | h
    · exact Or.inl (Or.inl h)
    · rcases strLe_total a.1 b.1 with ht | ht
      · exact Or.inl (Or.inr ⟨h, ht⟩)
      · exact Or.inr (Or.inr ⟨h.symm, ht⟩)
    · exact Or.inr (Or.inl h)⟩

instance : IsTrans (String × Nat) countLe :=
  ⟨fun a b c hab hbc => by
    unfold countLe at *
    rcases hab with h1 | ⟨h1, t1⟩ <;> rcases hbc with h2 | ⟨h2, t2⟩
    · exact Or.inl (h1.trans h2)
    · exact Or.inl (h2 ▸ h1)
    · exact Or.inl (h1 ▸ h2)
    · exact Or.inr ⟨h1.trans h2, strLe_trans t1 t2⟩⟩

instance : IsTotal PopItem popLe :=
  ⟨fun a b => by
    unfold popLe
    rcases Nat.lt_trichotomy a.completed b.completed with h | h | h
    · exact Or.inr (Or.inl h)
    · rcases strLe_total a.title b.title with ht | ht
      · exact Or.inl (Or.inr ⟨h, ht⟩)
      · exact Or.inr (Or.inr ⟨h.symm, ht⟩)
    · exact Or.inl (Or.inl h)⟩

instance : IsTrans PopItem popLe :=
  ⟨fun a b c hab hbc => by
    unfold popLe at *
    rcases hab with h1 | ⟨h1, t1⟩ <;> rcases hbc with h2 | ⟨h2, t2⟩
    · exact Or.inl (h2.trans h1)
    · exact Or.inl (h2 ▸ h1)
    · exact Or.inl (h1 ▸ h2)
    · exact Or.inr ⟨h1.trans h2, strLe_trans t1 t2⟩⟩

/-! ## Normalization: `pyStrip` and `pyLower` facts -/

theorem charOfNat_toNat {n : Nat} (h : n < 55296) : (Char.ofNat n).toNat = n := by
  unfold Char.ofNat
  rw [dif_pos (Or.inl h)]
  rfl

theorem lowerChar_idem (c : Char) : lowerChar (lowerChar c) = lowerChar c := by
  unfold lowerChar
  by_cases h : 65 ≤ c.toNat ∧ c.toNat ≤ 90
  · rw [if_pos h]
    have hv : (Char.ofNat (c.toNat + 32)).toNat = c.toNat + 32 :=
      charOfNat_toNat (by omega)
    rw [if_neg (by omega)]
  · rw [if_neg h, if_neg h]


theorem isSpaceCh_lowerChar (c : Char) : isSpaceCh (lowerChar c) = isSpaceCh c := by
  unfold lowerChar
  by_cases h : 65 ≤ c.toNat ∧ c.toNat ≤ 90
  · obtain ⟨ha, hb⟩ := h
    rw [if_pos ⟨ha, hb⟩]
    have hv : (Char.ofNat (c.toNat + 32)).toNat = c.toNat + 32 :=
      charOfNat_toNat (by omega)
    have l1 : isSpaceCh (Char.ofNat (c.toNat + 32)) = false := by
      unfold isSpaceCh
      rw [hv]
      simp only [Bool.or_eq_false_iff, decide_eq_false_iff_not]
      omega
    have l2 : isSpaceCh c = false := by
      unfold isSpaceCh
      simp only [Bool.or_eq_false_iff, decide_eq_false_iff_not]
      omega
    rw [l1, l2]
  · rw [if_neg h]

theorem pyLower_idem (s : String) : pyLower (pyLower s) = pyLower s := by
  unfold pyLower
  apply congrArg String.mk
  show (s.data.map lowerChar).map lowerChar = s.data.map lowerChar
  rw [List.map_map]
  exact List.map_congr_left (fun a _ => lowerChar_idem a)

theorem mk_eq_empty_iff (l : List Char) : String.mk l = "" ↔ l = [] := by
  constructor
  · intro h
    have := congrArg String.data h
    simpa using this
  · intro h
    rw [h]

theorem pyStripL_headFree (l : List Char) {a : Char}
    (h : (pyStripL l).head? = some a) : isSpaceCh a = false := by
  unfold pyStripL at h
  obtain ⟨t, ht⟩ := List.rdropWhile_prefix isSpaceCh (l.dropWhile isSpaceCh)
  rcases hv : (l.dropWhile isSpaceCh).rdropWhile isSpaceCh with _ | ⟨b, v⟩
  · rw [hv] at h; simp at h
  · rw [hv] at h ht
    simp only [List.head?_cons, Option.some_inj] at h
    have hd : l.dropWhile isSpaceCh = b :: (v ++ t) := by
      rw [← ht]; rfl
    have hne : l.dropWhile isSpaceCh ≠ [] := by rw [hd]; simp
    have hfalse := List.head_dropWhile_not isSpaceCh l hne
    have e2 : (l.dropWhile isSpaceCh).head? = some b := by rw [hd]; rfl
    have e1 := List.head?_eq_head hne
    rw [e1] at e2
    have hhead : (l.dropWhile isSpaceCh).head hne = b := Option.some_inj.mp e2
    rw [← h, ← hhead]
    exact hfalse

theorem pyStripL_lastFree (l : List Char) {a : Char}
    (h : (pyStripL l).getLast? = some a) : isSpaceCh a = false := by
  have hne : pyStripL l ≠ [] := by
    intro hc
    rw [hc] at h
    simp at h
  have e1 := List.getLast?_eq_getLast (pyStripL l) hne
  rw [h] at e1
  have ha : a = (pyStripL l).getLast hne := Option.some_inj.mp e1
  have h2 := List.rdropWhile_last_not isSpaceCh (l.dropWhile isSpaceCh) hne
  rw [ha]
  simpa using h2

theorem stripL_eq_self {l : List Char}
    (h1 : ∀ a, l.head? = some a → isSpaceCh a = false)
    (h2 : ∀ a, l.getLast? = some a → isSpaceCh a = false) :
    pyStripL l = l := by
  unfold pyStripL
  have hd : l.dropWhile isSpaceCh = l := by
    rcases l with _ | ⟨a, l'⟩
    · rfl
    · rw [List.dropWhile_cons]
      simp [h1 a rfl]
  rw [hd, List.rdropWhile_eq_self_iff]
  intro hl
  have e1 := List.getLast?_eq_getLast l hl
  simp [h2 (l.getLast hl) e1]

theorem pyStripL_idem (l : List Char) : pyStripL (pyStripL l) = pyStripL l :=
  stripL_eq_self (fun _ h => pyStripL_headFree l h) (fun _ h => pyStripL_lastFree l h)

theorem stripL_map_lower_eq_self (l : List Char) :
    pyStripL ((pyStripL l).map lowerChar) = (pyStripL l).map lowerChar := by
  apply stripL_eq_self
  · intro a h
    rw [List.head?_map] at h
    rcases hv : (pyStripL l).head? with _ | b
    · rw [hv] at h; simp at h
    · rw [hv] at h
      simp only [Option.map_some', Option.some_inj] at h
      rw [← h, isSpaceCh_lowerChar]
      exact pyStripL_headFree l hv
  · intro a h
    rw [List.getLast?_map] at h
    rcases hv : (pyStripL l).getLast? with _ | b
    · rw [hv] at h; simp at h
    · rw [hv] at h
      simp only [Option.map_some', Option.some_inj] at h
      rw [← h, isSpaceCh_lowerChar]
      exact pyStripL_lastFree l hv

theorem pyStrip_pyLower_pyStrip (s : String) :
    pyStrip (pyLower (pyStrip s)) = pyLower (pyStrip s) := by
  unfold pyStrip pyLower
  apply congrArg String.mk
  exact stripL_map_lower_eq_self s.data

theorem pyLower_ne_empty {s : String} (h : s ≠ "") : pyLower s ≠ "" := by
  intro hc
  apply h
  unfold pyLower at hc
  rw [mk_eq_empty_iff] at hc
  rcases s with ⟨l⟩
  rw [mk_eq_empty_iff]
  simpa using hc

theorem normTopic_fix {t : JVal} {s : String} (h : normTopic t = some s) :
    normTopic (JVal.str s) = some s := by
  rcases t with _ | u | n | xs
  · simp [normTopic] at h
  · simp only [normTopic] at h
    by_cases hu : pyStrip u = ""
    · simp [hu] at h
    · rw [if_neg hu] at h
      have hs : s = pyLower (pyStrip u) := by
        injection h with h
        exact h.symm
      subst hs
      have h1 : pyStrip (pyLower (pyStrip u)) = pyLower (pyStrip u) :=
        pyStrip_pyLower_pyStrip u
      have h2 : pyLower (pyStrip u) ≠ "" := pyLower_ne_empty hu
      simp only [normTopic, h1, if_neg h2]
      exact congrArg some (pyLower_idem (pyStrip u))
  · simp [normTopic] at h
  · simp [normTopic] at h

theorem filterMap_of_all_some {α : Type} (f : α → Option α) :
    ∀ l : List α, (∀ a ∈ l, f a = some a) → l.filterMap f = l
  | [], _ => rfl
  | a :: l, h => by
    rw [List.filterMap_cons, h a (by simp)]
    rw [filterMap_of_all_some f l (fun b hb => h b (by simp [hb]))]

theorem normalized_topics_fix (topics : List JVal) :
    normalized_topics ((normalized_topics topics).map JVal.str) =
      normalized_topics topics := by
  unfold normalized_topics
  rw [List.filterMap_map]
  have hall : ∀ s ∈ (topics.filterMap normTopic).dedup,
      (normTopic ∘ JVal.str) s = some s := by
    intro s hs
    rw [List.mem_dedup, List.mem_filterMap] at hs
    obtain ⟨t, _, ht⟩ := hs
    exact normTopic_fix ht
  rw [filterMap_of_all_some (normTopic ∘ JVal.str) _ hall]
  exact List.dedup_eq_self.mpr (List.nodup_dedup _)

/-! ## Generic list facts -/

theorem eq_of_sorted_of_perm {α : Type} {r : α → α → Prop} :
    ∀ {l1 l2 : List α}, l1.Perm l2 → l1.Sorted r → l2.Sorted r →
      (∀ a ∈ l1, ∀ b ∈ l1, r a b → r b a → a = b) → l1 = l2
  | [], l2, hp, _, _, _ => hp.nil_eq
  | a :: t1, l2, hp, hs1, hs2, hanti => by
    have ha2 : a ∈ l2 := hp.mem_iff.mp (by simp)
    rcases l2 with _ | ⟨b, t2⟩
    · simp at ha2
    · rw [List.sorted_cons] at hs1 hs2
      by_cases hab : a = b
      · subst hab
        have hp' : t1.Perm t2 := hp.cons_inv
        have ht := eq_of_sorted_of_perm hp' hs1.2 hs2.2
          (fun x hx y hy => hanti x (by simp [hx]) y (by simp [hy]))
        rw [ht]
      · have ha_t2 : a ∈ t2 := by
          rcases List.mem_cons.mp ha2 with h | h
          · exact absurd h hab
          · exact h
        have hb1 : b ∈ a :: t1 := hp.symm.mem_iff.mp (by simp)
        have hb_t1 : b ∈ t1 := by
          rcases List.mem_cons.mp hb1 with h | h
          · exact absurd h.symm hab
          · exact h
        have rab : r a b := hs1.1 b hb_t1
        have rba : r b a := hs2.1 a ha_t2
        exact absurd (hanti a (by simp) b (by simp [hb_t1]) rab rba) hab

theorem map_filterMap_sublist {α β : Type} (g : α → Option β) (f : β → String)
    (f' : α → String) (hf : ∀ a b, g a = some b → f b = f' a) :
    ∀ l : List α, ((l.filterMap g).map f).Sublist (l.map f')
  | [] => List.Sublist.refl _
  | a :: l => by
    rw [List.filterMap_cons]
    rcases hg : g a with _ | b
    · exact List.Sublist.cons _ (map_filterMap_sublist g f f' hf l)
    · rw [List.map_cons, List.map_cons, hf a b hg]
      exact List.Sublist.cons₂ _ (map_filterMap_sublist g f f' hf l)

theorem eq_of_mem_of_nodup_map {α : Type} {f : α → String} {l : List α}
    (hn : (l.map f).Nodup) {a b : α} (ha : a ∈ l) (hb : b ∈ l)
    (hf : f a = f b) : a = b := by
  by_contra hne
  have hp : l.Pairwise (fun x y => f x ≠ f y) := by
    rw [List.Nodup, List.pairwise_map] at hn
    exact hn
  have hsym : Symmetric (fun x y => f x ≠ f y) := fun x y h e => h e.symm
  exact (List.Pairwise.forall hsym hp ha hb hne) hf

/-! ## The topic-overlap scorer (C1, C5, C6) -/

theorem mem_score_iff (resources : List Resource) (topics : List JVal) (it : Item) :
    it ∈ score_resources_by_topics resources topics ↔
      (normalized_topics topics ≠ [] ∧ ∃ r ∈ resources,
        0 < interScore r (normalized_topics topics) ∧
        it = ⟨r.title, r.description, r.link, interScore r (normalized_topics topics)⟩) := by
  unfold score_resources_by_topics
  by_cases h : normalized_topics topics = []
  · simp [h]
  · rw [if_neg h, List.mem_insertionSort, List.mem_filterMap]
    constructor
    · rintro ⟨r, hr, hsome⟩
      by_cases hs : 0 < interScore r (normalized_topics topics)
      · rw [if_pos hs] at hsome
        exact ⟨h, r, hr, hs, (Option.some_inj.mp hsome).symm⟩
      · rw [if_neg hs] at hsome
        exact absurd hsome (by simp)
    · rintro ⟨-, r, hr, hs, heq⟩
      exact ⟨r, hr, by rw [if_pos hs, heq]⟩

theorem score_sorted (resources : List Resource) (topics : List JVal) :
    (score_resources_by_topics resources topics).Sorted itemLe := by
  unfold score_resources_by_topics
  by_cases h : normalized_topics topics = []
  · simp [h]
  · rw [if_neg h]
    exact List.sorted_insertionSort itemLe _

theorem score_titles_nodup (resources : List Resource) (topics : List JVal)
    (hres : (resources.map Resource.title).Nodup) :
    ((score_resources_by_topics resources topics).map Item.title).Nodup := by
  unfold score_resources_by_topics
  by_cases h : normalized_topics topics = []
  · simp [h]
  · rw [if_neg h]
    have hperm := List.perm_insertionSort itemLe
      (resources.filterMap (fun r =>
        if 0 < interScore r (normalized_topics topics) then
          some ⟨r.title, r.description, r.link, interScore r (normalized_topics topics)⟩
        else none))
    have hsub := map_filterMap_sublist
      (fun r =>
        if 0 < interScore r (normalized_topics topics) then
          some (⟨r.title, r.description, r.link,
            interScore r (normalized_topics topics)⟩ : Item)
        else none)
      Item.title Resource.title
      (fun a b hg => by
        dsimp only at hg
        by_cases hs : 0 < interScore a (normalized_topics topics)
        · rw [if_pos hs] at hg
          rw [← Option.some_inj.mp hg]
        · rw [if_neg hs] at hg
          exact absurd hg (by simp))
      resources
    have hn : ((resources.filterMap _).map Item.title).Nodup := hsub.nodup hres
    exact ((hperm.map Item.title).nodup_iff).mpr hn

/-- C1: the topic-overlap scorer normalizes the requested topics (trim,
lowercase, drop empty and non-string entries, deduplicate), returns the
empty list (not an error) when the normalized set is empty, and otherwise
returns exactly the resources whose lowercased tag set meets the
normalized topic set, each output item carrying every resource field
except `tags` plus a score equal to the intersection size; a zero-score
resource never appears. -/
theorem c1_scorer_filters_and_scores (resources : List Resource) (topics : List JVal) :
    normalized_topics [JVal.str "  PyThOn ", JVal.str "python", JVal.num 3,
        JVal.str " "] = ["python"] ∧
    (normalized_topics topics = [] → score_resources_by_topics resources topics = []) ∧
    (∀ it : Item, it ∈ score_resources_by_topics resources topics ↔
      (normalized_topics topics ≠ [] ∧ ∃ r ∈ resources,
        0 < interScore r (normalized_topics topics) ∧
        it = ⟨r.title, r.description, r.link,
          interScore r (normalized_topics topics)⟩)) := by
  refine ⟨by decide, fun h => ?_, fun it => mem_score_iff resources topics it⟩
  unfold score_resources_by_topics
  rw [if_pos h]

theorem c1_scorer_filters_and_scores_witness :
    normalized_topics [JVal.num 1] = [] ∧
    score_resources_by_topics SAMPLE_RESOURCES [JVal.num 1] = [] :=
  ⟨by decide, (c1_scorer_filters_and_scores SAMPLE_RESOURCES [JVal.num 1]).2.1 (by decide)⟩

/-- C5: every recommendation list, before and after boosting, is sorted by
the comparator "descending score, ties by ascending title" (`itemLe`), so
the order is deterministic; at equal score, "Django Overview" precedes
"Flask Basics". -/
theorem c5_sort_deterministic :
    (∀ (resources : List Resource) (topics : List JVal),
      (score_resources_by_topics resources topics).Sorted itemLe) ∧
    (∀ (recs : List Item) (counts : List (String × Nat)),
      (history_boost recs counts).Sorted itemLe) ∧
    score_resources_by_topics SAMPLE_RESOURCES [JVal.str "web"] =
      [⟨"Django Overview", "Batteries-included web framework",
         "https://www.djangoproject.com/", 1⟩,
       ⟨"Flask Basics", "Learn web development with Flask",
         "https://flask.palletsprojects.com/", 1⟩] := by
  refine ⟨score_sorted, fun recs counts => ?_, by decide⟩
  unfold history_boost
  exact List.sorted_insertionSort itemLe _

/-- C6: scoring is invariant under normalizing the topic list first: for
every topic list, scoring equals scoring its trimmed, lowercased,
deduplicated form; in particular `["Python", " python "]` scores exactly
like `["python"]`. -/
theorem c6_normalization_idempotent (resources : List Resource) (topics : List JVal) :
    score_resources_by_topics resources topics =
      score_resources_by_topics resources ((normalized_topics topics).map JVal.str) ∧
    score_resources_by_topics SAMPLE_RESOURCES [JVal.str "Python", JVal.str " python "] =
      score_resources_by_topics SAMPLE_RESOURCES [JVal.str "python"] := by
  constructor
  · unfold score_resources_by_topics
    rw [normalized_topics_fix]
  · decide

/-! ## Store and frequency-dict machinery -/

theorem storeGet_storeSet_same (data : Store) (k : String) (v : UserRec) :
    storeGet (storeSet data k v) k = v := by
  induction data with
  | nil => simp [storeSet, storeGet]
  | cons p rest ih =>
    rcases p with ⟨k', v'⟩
    by_cases h : k' = k
    · simp [storeSet, h, storeGet]
    · simp [storeSet, h, storeGet, ih]

theorem storeGet_storeSet_other (data : Store) {k k' : String} (v : UserRec)
    (h : k' ≠ k) : storeGet (storeSet data k v) k' = storeGet data k' := by
  induction data with
  | nil => simp [storeSet, storeGet, Ne.symm h]
  | cons p rest ih =>
    rcases p with ⟨k0, v0⟩
    by_cases h0 : k0 = k
    · subst h0
      simp [storeSet, storeGet, Ne.symm h]
    · simp only [storeSet, if_neg h0, storeGet]
      by_cases h1 : k0 = k'
      · simp [h1]
      · simp [h1, ih]

theorem storeSet_storeSet (data : Store) (k : String) (v w : UserRec) :
    storeSet (storeSet data k v) k w = storeSet data k w := by
  induction data with
  | nil => simp [storeSet]
  | cons p rest ih =>
    rcases p with ⟨k0, v0⟩
    by_cases h : k0 = k
    · simp [storeSet, h]
    · simp [storeSet, h, ih]

theorem mem_storeSet {data : Store} {k : String} {v : UserRec} {p : String × UserRec}
    (h : p ∈ storeSet data k v) : p ∈ data ∨ p = (k, v) := by
  induction data with
  | nil => simpa [storeSet] using h
  | cons q rest ih =>
    rcases q with ⟨k0, v0⟩
    by_cases h0 : k0 = k
    · rw [storeSet, if_pos h0] at h
      rcases List.mem_cons.mp h with h1 | h1
      · exact Or.inr h1
      · exact Or.inl (List.mem_cons.mpr (Or.inr h1))
    · rw [storeSet, if_neg h0] at h
      rcases List.mem_cons.mp h with h1 | h1
      · exact Or.inl (List.mem_cons.mpr (Or.inl h1))
      · rcases ih h1 with h2 | h2
        · exact Or.inl (List.mem_cons.mpr (Or.inr h2))
        · exact Or.inr h2

theorem storeGet_default_or_mem (data : Store) (k : String) :
    storeGet data k = defaultUser ∨ (k, storeGet data k) ∈ data := by
  induction data with
  | nil => exact Or.inl rfl
  | cons q rest ih =>
    rcases q with ⟨k0, v0⟩
    by_cases h0 : k0 = k
    · subst h0
      right
      simp [storeGet]
    · rw [storeGet, if_neg h0]
      rcases ih with h | h
      · exact Or.inl h
      · exact Or.inr (List.mem_cons.mpr (Or.inr h))

theorem countKeys_bump_mem (acc : List (String × Nat)) (t k : String) :
    k ∈ countKeys (bump acc t) ↔ k ∈ countKeys acc ∨ k = t := by
  induction acc with
  | nil => simp [bump, countKeys]
  | cons p rest ih =>
    rcases p with ⟨k0, n0⟩
    by_cases h : k0 = t
    · simp only [bump, if_pos h]
      subst h
      simp only [countKeys, List.map_cons, List.mem_cons]
      tauto
    · simp only [bump, if_neg h]
      simp only [countKeys, List.map_cons, List.mem_cons]
      simp only [countKeys] at ih
      rw [ih]
      tauto

theorem lookupCount_bump (acc : List (String × Nat)) (t k : String) :
    lookupCount (bump acc t) k =
      lookupCount acc k + (if k = t then 1 else 0) := by
  induction acc with
  | nil =>
    by_cases h : t = k
    · simp [bump, lookupCount, h]
    · have h' : ¬ k = t := fun hc => h hc.symm
      simp [bump, lookupCount, h, h']
  | cons p rest ih =>
    rcases p with ⟨k0, n0⟩
    by_cases h0 : k0 = t
    · simp only [bump, if_pos h0]
      by_cases h1 : k0 = k
      · have : k = t := h1 ▸ h0
        simp [lookupCount, h1, this]
      · have : ¬ k = t := fun hc => h1 (h0.symm ▸ hc.symm ▸ rfl)
        simp [lookupCount, h1, this]
    · simp only [bump, if_neg h0]
      by_cases h1 : k0 = k
      · have : ¬ k = t := fun hc => h0 (by rw [h1, hc])
        simp [lookupCount, h1, this]
      · simp [lookupCount, h1, ih]

theorem countKeys_bump_nodup {acc : List (String × Nat)} (t : String)
    (h : (countKeys acc).Nodup) : (countKeys (bump acc t)).Nodup := by
  induction acc with
  | nil => simp [bump, countKeys]
  | cons p rest ih =>
    rcases p with ⟨k0, n0⟩
    simp only [countKeys, List.map_cons, List.nodup_cons] at h
    by_cases h0 : k0 = t
    · simp only [bump, if_pos h0]
      simp only [countKeys, List.map_cons, List.nodup_cons]
      exact h
    · simp only [bump, if_neg h0]
      simp only [countKeys, List.map_cons, List.nodup_cons]
      refine ⟨fun hc => ?_, ih h.2⟩
      rw [show (List.map (fun p => p.1) (bump rest t) : List String) =
        countKeys (bump rest t) from rfl, countKeys_bump_mem] at hc
      rcases hc with hc | hc
      · exact h.1 hc
      · exact h0 hc

theorem lookupCount_foldl_bump :
    ∀ (l : List String) (acc : List (String × Nat)) (k : String),
      lookupCount (l.foldl bump acc) k = lookupCount acc k + l.count k
  | [], acc, k => by simp
  | t :: l, acc, k => by
    rw [List.foldl_cons, lookupCount_foldl_bump l (bump acc t) k, lookupCount_bump]
    have hiff : (if k = t then 1 else 0) = (if (t == k) = true then 1 else 0) := by
      by_cases h : k = t
      · simp [h]
      · have h' : ¬ t = k := fun hc => h hc.symm
        simp [h, h']
    rw [List.count_cons, hiff]
    omega

theorem mem_countKeys_foldl_bump :
    ∀ (l : List String) (acc : List (String × Nat)) (k : String),
      k ∈ countKeys (l.foldl bump acc) ↔ k ∈ countKeys acc ∨ k ∈ l
  | [], acc, k => by simp
  | t :: l, acc, k => by
    rw [List.foldl_cons, mem_countKeys_foldl_bump l (bump acc t) k, countKeys_bump_mem]
    simp only [List.mem_cons]
    tauto

theorem countKeys_foldl_bump_nodup :
    ∀ (l : List String) (acc : List (String × Nat)),
      (countKeys acc).Nodup → (countKeys (l.foldl bump acc)).Nodup
  | [], _, h => h
  | t :: l, acc, h =>
    countKeys_foldl_bump_nodup l (bump acc t) (countKeys_bump_nodup t h)

theorem mem_counts_iff : ∀ (counts : List (String × Nat)),
    (countKeys counts).Nodup → ∀ (k : String) (n : Nat),
      ((k, n) ∈ counts ↔ k ∈ countKeys counts ∧ n = lookupCount counts k)
  | [], _, k, n => by simp [countKeys, lookupCount]
  | (k0, n0) :: rest, h, k, n => by
    simp only [countKeys, List.map_cons, List.nodup_cons] at h
    by_cases h0 : k0 = k
    · subst h0
      constructor
      · intro hm
        rcases List.mem_cons.mp hm with he | he
        · rw [Prod.mk.injEq] at he
          refine ⟨by simp [countKeys], ?_⟩
          simp only [lookupCount]
          simp [he.2]
        · exact absurd
            (by simpa [countKeys] using List.mem_map_of_mem (fun p => p.1) he) h.1
      · rintro ⟨-, hn⟩
        simp only [lookupCount, if_pos rfl] at hn
        exact List.mem_cons.mpr (Or.inl (by simp [hn]))
    · have ihr := mem_counts_iff rest h.2 k n
      constructor
      · intro hm
        rcases List.mem_cons.mp hm with he | he
        · rw [Prod.mk.injEq] at he
          exact absurd he.1.symm h0
        · have hr := ihr.mp he
          refine ⟨?_, ?_⟩
          · simp only [countKeys, List.map_cons, List.mem_cons]
            right
            simpa [countKeys] using hr.1
          · simp only [lookupCount, if_neg h0]
            exact hr.2
      · rintro ⟨hk, hn⟩
        simp only [countKeys, List.map_cons, List.mem_cons] at hk
        rcases hk with hk | hk
        · exact absurd hk.symm h0
        · simp only [lookupCount, if_neg h0] at hn
          exact List.mem_cons.mpr
            (Or.inr (ihr.mpr ⟨by simpa [countKeys] using hk, hn⟩))

theorem lookupCount_topicCounts (l : List String) (k : String) :
    lookupCount (topicCounts l) k = l.count k := by
  unfold topicCounts
  rw [lookupCount_foldl_bump]
  simp [lookupCount]

theorem mem_countKeys_topicCounts (l : List String) (k : String) :
    k ∈ countKeys (topicCounts l) ↔ k ∈ l := by
  unfold topicCounts
  rw [mem_countKeys_foldl_bump]
  simp [countKeys]

theorem topicCounts_keys_nodup (l : List String) :
    (countKeys (topicCounts l)).Nodup :=
  countKeys_foldl_bump_nodup l [] (by simp [countKeys])

theorem topicCounts_eq_nil_iff (l : List String) : topicCounts l = [] ↔ l = [] := by
  constructor
  · intro h
    rcases l with _ | ⟨t, l'⟩
    · rfl
    · have := (mem_countKeys_topicCounts (t :: l') t).mpr (by simp)
      rw [h] at this
      simp [countKeys] at this
  · intro h
    rw [h]
    rfl

theorem mem_topicCounts_iff (l : List String) (k : String) (n : Nat) :
    (k, n) ∈ topicCounts l ↔ k ∈ l ∧ n = l.count k := by
  rw [mem_counts_iff (topicCounts l) (topicCounts_keys_nodup l) k n,
    mem_countKeys_topicCounts, lookupCount_topicCounts]

/-- C7: `next_topic` returns the fixed default "python" when the user has
no topic history, and otherwise returns a topic of the history with the
lowest occurrence count, ties broken alphabetically; with history counts
`{python: 2, web: 1}` it returns "web". -/
theorem c7_next_topic_least_practiced (data : Store) (email : String) :
    ((storeGet data email).topics = [] → next_topic data email = "python") ∧
    ((storeGet data email).topics ≠ [] →
      next_topic data email ∈ (storeGet data email).topics ∧
      ∀ t ∈ (storeGet data email).topics,
        (storeGet data email).topics.count (next_topic data email) <
            (storeGet data email).topics.count t ∨
          ((storeGet data email).topics.count (next_topic data email) =
              (storeGet data email).topics.count t ∧
            strLe (next_topic data email) t)) ∧
    next_topic [] "a@b.com" = "python" ∧
    next_topic [("u@a.com", ⟨["python", "python", "web"], [], 0⟩)] "u@a.com" = "web" := by
  refine ⟨?_, ?_, by decide, by decide⟩
  · intro h
    unfold next_topic get_user_topic_counts
    rw [if_pos (by rw [h]; rfl)]
  · intro h
    have hcne : topicCounts (storeGet data email).topics ≠ [] := by
      rw [Ne, topicCounts_eq_nil_iff]
      exact h
    have hlen := (List.perm_insertionSort countLe
      (topicCounts (storeGet data email).topics)).length_eq
    rcases hs : List.insertionSort countLe (topicCounts (storeGet data email).topics)
      with _ | ⟨hd, tl⟩
    · rw [hs] at hlen
      exact absurd (List.length_eq_zero.mp hlen.symm) hcne
    · have hnext : next_topic data email = hd.1 := by
        unfold next_topic get_user_topic_counts
        rw [if_neg hcne, hs]
        rfl
      have hperm := List.perm_insertionSort countLe
        (topicCounts (storeGet data email).topics)
      have hhd_mem : hd ∈ topicCounts (storeGet data email).topics := by
        refine hperm.mem_iff.mp ?_
        rw [hs]
        simp
      rcases hd with ⟨k0, n0⟩
      rw [mem_topicCounts_iff] at hhd_mem
      have hsorted := List.sorted_insertionSort countLe
        (topicCounts (storeGet data email).topics)
      rw [hs, List.sorted_cons] at hsorted
      constructor
      · rw [hnext]
        exact hhd_mem.1
      · intro t ht
        have htmem : (t, (storeGet data email).topics.count t) ∈
            topicCounts (storeGet data email).topics :=
          (mem_topicCounts_iff _ t _).mpr ⟨ht, rfl⟩
        have htins : (t, (storeGet data email).topics.count t) ∈
            ((k0, n0) :: tl : List (String × Nat)) := by
          rw [← hs]
          exact hperm.symm.mem_iff.mp htmem
        rcases List.mem_cons.mp htins with he | he
        · rw [Prod.mk.injEq] at he
          right
          rw [hnext]
          rcases he with ⟨ht1, hn1⟩
          subst ht1
          exact ⟨rfl, strLe_refl t⟩
        · have hle := hsorted.1 _ he
          unfold countLe at hle
          rw [hnext]
          rcases hle with hle | hle
          · left
            rw [hhd_mem.2] at hle
            exact hle
          · right
            rw [hhd_mem.2] at hle
            exact ⟨hle.1, hle.2⟩

theorem c7_next_topic_least_practiced_witness :
    (storeGet [("u@a.com", (⟨["python", "python", "web"], [], 0⟩ : UserRec))]
        "u@a.com").topics ≠ [] ∧
    next_topic [("u@a.com", ⟨["python", "python", "web"], [], 0⟩)] "u@a.com" ∈
      (storeGet [("u@a.com", (⟨["python", "python", "web"], [], 0⟩ : UserRec))]
        "u@a.com").topics :=
  ⟨by decide,
   ((c7_next_topic_least_practiced [("u@a.com", ⟨["python", "python", "web"], [], 0⟩)]
      "u@a.com").2.1 (by decide)).1⟩

/-! ## Completion recording (C3, C4) -/

theorem record_completion_store (data : Store) (email title : String) (award : Int) :
    (record_completion data email title award).2 =
      storeSet data email (record_completion data email title award).1 := rfl

theorem record_completion_mem (data : Store) (email title : String) (award : Int) :
    title ∈ (record_completion data email title award).1.completed := by
  unfold record_completion
  by_cases h : title ∈ (storeGet data email).completed.dedup
  · simp only [if_pos h]
    rw [List.mem_insertionSort]
    exact h
  · simp only [if_neg h]
    rw [List.mem_insertionSort]
    simp

theorem record_completion_nodup (data : Store) (email title : String) (award : Int) :
    (record_completion data email title award).1.completed.Nodup := by
  unfold record_completion
  by_cases h : title ∈ (storeGet data email).completed.dedup
  · simp only [if_pos h]
    exact ((List.perm_insertionSort strLe _).nodup_iff).mpr (List.nodup_dedup _)
  · simp only [if_neg h]
    exact ((List.perm_insertionSort strLe _).nodup_iff).mpr
      (List.nodup_cons.mpr ⟨h, List.nodup_dedup _⟩)

theorem record_completion_sorted (data : Store) (email title : String) (award : Int) :
    (record_completion data email title award).1.completed.Sorted strLe := by
  unfold record_completion
  by_cases h : title ∈ (storeGet data email).completed.dedup
  · simp only [if_pos h]
    exact List.sorted_insertionSort strLe _
  · simp only [if_neg h]
    exact List.sorted_insertionSort strLe _

theorem record_completion_points_first (data : Store) (email title : String)
    (award : Int) (h : title ∉ (storeGet data email).completed) :
    (record_completion data email title award).1.points =
      (storeGet data email).points + award := by
  unfold record_completion
  have h' : title ∉ (storeGet data email).completed.dedup :=
    fun hc => h (List.mem_dedup.mp hc)
  simp only [if_neg h']

theorem record_completion_topics (data : Store) (email title : String) (award : Int) :
    (record_completion data email title award).1.topics =
      (storeGet data email).topics := by
  unfold record_completion
  by_cases h : title ∈ (storeGet data email).completed.dedup
  · simp only [if_pos h]
  · simp only [if_neg h]

theorem record_completion_length (data : Store) (email title : String) (award : Int) :
    (record_completion data email title award).1.completed.length =
      (if title ∈ (storeGet data email).completed.dedup
        then (storeGet data email).completed.dedup.length
        else (storeGet data email).completed.dedup.length + 1) := by
  unfold record_completion
  by_cases h : title ∈ (storeGet data email).completed.dedup
  · simp only [if_pos h]
    exact (List.perm_insertionSort strLe _).length_eq
  · simp only [if_neg h]
    rw [(List.perm_insertionSort strLe _).length_eq]
    rfl

theorem record_completion_points_cases (data : Store) (email title : String)
    (award : Int) :
    (record_completion data email title award).1.points =
      (if title ∈ (storeGet data email).completed.dedup
        then (storeGet data email).points
        else (storeGet data email).points + award) := by
  unfold record_completion
  by_cases h : title ∈ (storeGet data email).completed.dedup
  · simp only [if_pos h]
  · simp only [if_neg h]

theorem record_completion_stable {data : Store} {email title : String} {award : Int}
    (hmem : title ∈ (storeGet data email).completed)
    (hnodup : (storeGet data email).completed.Nodup)
    (hsorted : (storeGet data email).completed.Sorted strLe) :
    record_completion data email title award =
      (storeGet data email, storeSet data email (storeGet data email)) := by
  unfold record_completion
  dsimp only
  have hdedup := List.dedup_eq_self.mpr hnodup
  rw [hdedup]
  simp only [if_pos hmem]
  rw [List.Sorted.insertionSort_eq hsorted]

theorem record_completion_idem (data : Store) (email title : String) (award : Int) :
    record_completion (record_completion data email title award).2 email title award =
      record_completion data email title award := by
  have hget : storeGet (record_completion data email title award).2 email =
      (record_completion data email title award).1 := by
    rw [record_completion_store]
    exact storeGet_storeSet_same _ _ _
  rw [record_completion_stable (by rw [hget]; exact record_completion_mem _ _ _ _)
      (by rw [hget]; exact record_completion_nodup _ _ _ _)
      (by rw [hget]; exact record_completion_sorted _ _ _ _)]
  rw [hget, record_completion_store data email title award, storeSet_storeSet,
    ← record_completion_store]

/-- C3: `record_completion` is idempotent per (email, title): a first call
for an uncompleted title adds it to the completed set and awards the
points bonus once; a repeat call with the same email and title returns
the same points and completed set and leaves the store unchanged; the
returned completed set is sorted; calling `/complete` twice with email
"a@b.com" and title "Flask Basics" yields points 10 and completed
["Flask Basics"] both times. -/
theorem c3_completion_idempotent (data : Store) (email title : String) :
    title ∈ (record_completion data email title 10).1.completed ∧
    (title ∉ (storeGet data email).completed →
      (record_completion data email title 10).1.points =
        (storeGet data email).points + 10) ∧
    record_completion (record_completion data email title 10).2 email title 10 =
      record_completion data email title 10 ∧
    (record_completion data email title 10).1.completed.Sorted strLe ∧
    completeCore [] "a@b.com" "Flask Basics" =
      (some (10, ["Flask Basics"]), [("a@b.com", ⟨[], ["Flask Basics"], 10⟩)]) ∧
    completeCore [("a@b.com", ⟨[], ["Flask Basics"], 10⟩)] "a@b.com" "Flask Basics" =
      (some (10, ["Flask Basics"]), [("a@b.com", ⟨[], ["Flask Basics"], 10⟩)]) :=
  ⟨record_completion_mem data email title 10,
   fun h => record_completion_points_first data email title 10 h,
   record_completion_idem data email title 10,
   record_completion_sorted data email title 10,
   by decide, by decide⟩

theorem c3_completion_idempotent_witness :
    ("Flask Basics" ∉ (storeGet [] "a@b.com").completed) ∧
    (record_completion [] "a@b.com" "Flask Basics" 10).1.points =
      (storeGet [] "a@b.com").points + 10 :=
  ⟨by decide, (c3_completion_idempotent [] "a@b.com" "Flask Basics").2.1 (by decide)⟩

/-! ## Reachable-store invariant (C4, C8) -/

theorem goodU_default : GoodU defaultUser := by
  refine ⟨rfl, ?_, ?_⟩ <;> simp [defaultUser]

theorem goodU_storeGet {data : Store} (hinv : ∀ p ∈ data, GoodU p.2)
    (email : String) : GoodU (storeGet data email) := by
  rcases storeGet_default_or_mem data email with h | h
  · rw [h]
    exact goodU_default
  · exact hinv _ h

theorem goodU_record_completion {data : Store} {email title : String}
    (hg : GoodU (storeGet data email)) :
    GoodU (record_completion data email title 10).1 := by
  obtain ⟨hp, hn, hs⟩ := hg
  refine ⟨?_, record_completion_nodup data email title 10,
    record_completion_sorted data email title 10⟩
  rw [record_completion_points_cases, record_completion_length,
    List.dedup_eq_self.mpr hn]
  by_cases h : title ∈ (storeGet data email).completed
  · rw [if_pos h, if_pos h, hp]
  · rw [if_neg h, if_neg h, hp]
    push_cast
    ring

theorem goodU_inv_foldl :
    ∀ (ops : List Op) (data : Store), (∀ p ∈ data, GoodU p.2) →
      ∀ p ∈ ops.foldl applyOp data, GoodU p.2
  | [], _, h => h
  | op :: ops, data, h => by
    rw [List.foldl_cons]
    refine goodU_inv_foldl ops (applyOp data op) ?_
    intro p hp
    rcases op with ⟨email, title⟩ | ⟨email, topics⟩
    · rw [applyOp, record_completion_store] at hp
      rcases mem_storeSet hp with h1 | h1
      · exact h _ h1
      · rw [h1]
        exact goodU_record_completion (goodU_storeGet h email)
    · rw [applyOp] at hp
      unfold record_user_topics at hp
      rcases mem_storeSet hp with h1 | h1
      · exact h _ h1
      · rw [h1]
        exact goodU_storeGet h email

theorem goodU_applyOps (ops : List Op) : ∀ p ∈ applyOps ops, GoodU p.2 :=
  goodU_inv_foldl ops [] (by intro p hp; simp at hp)

/-- C4: on every store reachable from the empty document by the recording
operations (completions use the default award of 10), each user's points
counter is a non-negative integer equal to 10 times the number of
distinct completed titles (the completed list is duplicate-free), and a
single recording step never decreases any user's points. -/
theorem c4_points_invariant (ops : List Op) (email : String) :
    (storeGet (applyOps ops) email).points =
      10 * ((storeGet (applyOps ops) email).completed.length : Int) ∧
    (storeGet (applyOps ops) email).completed.Nodup ∧
    0 ≤ (storeGet (applyOps ops) email).points ∧
    ∀ (data : Store) (op : Op),
      (storeGet data email).points ≤ (storeGet (applyOp data op) email).points := by
  have hg : GoodU (storeGet (applyOps ops) email) :=
    goodU_storeGet (goodU_applyOps ops) email
  obtain ⟨hp, hn, -⟩ := hg
  refine ⟨hp, hn, by rw [hp]; positivity, ?_⟩
  intro data op
  rcases op with ⟨e, title⟩ | ⟨e, topics⟩
  · rw [applyOp, record_completion_store]
    by_cases hem : email = e
    · subst hem
      rw [storeGet_storeSet_same, record_completion_points_cases]
      by_cases h : title ∈ (storeGet data email).completed.dedup
      · rw [if_pos h]
      · rw [if_neg h]
        omega
    · rw [storeGet_storeSet_other data _ hem]
  · rw [applyOp]
    unfold record_user_topics
    by_cases hem : email = e
    · subst hem
      rw [storeGet_storeSet_same]
    · rw [storeGet_storeSet_other data _ hem]

/-! ## Popularity aggregation (C8) -/

theorem lookupCount_countByTitle_aux :
    ∀ (S : Store) (acc : List (String × Nat)) (k : String),
      lookupCount (S.foldl (fun acc q => q.2.completed.foldl bump acc) acc) k =
        lookupCount acc k + (S.map (fun q => q.2.completed.count k)).sum
  | [], acc, k => by simp
  | q :: S, acc, k => by
    rw [List.foldl_cons, lookupCount_countByTitle_aux S _ k, lookupCount_foldl_bump,
      List.map_cons, List.sum_cons]
    omega

theorem mem_keys_countByTitle_aux :
    ∀ (S : Store) (acc : List (String × Nat)) (k : String),
      (k ∈ countKeys (S.foldl (fun acc q => q.2.completed.foldl bump acc) acc) ↔
        k ∈ countKeys acc ∨ ∃ q ∈ S, k ∈ q.2.completed)
  | [], acc, k => by simp
  | q :: S, acc, k => by
    rw [List.foldl_cons, mem_keys_countByTitle_aux S _ k, mem_countKeys_foldl_bump]
    simp only [List.mem_cons]
    constructor
    · rintro ((h | h) | ⟨q', hq', h⟩)
      · exact Or.inl h
      · exact Or.inr ⟨q, Or.inl rfl, h⟩
      · exact Or.inr ⟨q', Or.inr hq', h⟩
    · rintro (h | ⟨q', hq' | hq', h⟩)
      · exact Or.inl (Or.inl h)
      · exact Or.inl (Or.inr (hq' ▸ h))
      · exact Or.inr ⟨q', hq', h⟩

theorem keys_countByTitle_nodup :
    ∀ (S : Store) (acc : List (String × Nat)),
      (countKeys acc).Nodup →
        (countKeys (S.foldl (fun acc q => q.2.completed.foldl bump acc) acc)).Nodup
  | [], _, h => h
  | q :: S, acc, h => by
    rw [List.foldl_cons]
    exact keys_countByTitle_nodup S _ (countKeys_foldl_bump_nodup _ acc h)

theorem sum_counts_eq_usersCompleted :
    ∀ (S : Store), (∀ q ∈ S, q.2.completed.Nodup) → ∀ k : String,
      (S.map (fun q => q.2.completed.count k)).sum = usersCompleted S k
  | [], _, k => rfl
  | q :: S, h, k => by
    rw [List.map_cons, List.sum_cons,
      sum_counts_eq_usersCompleted S (fun q' hq' => h q' (by simp [hq'])) k]
    unfold usersCompleted
    rw [List.filter_cons]
    by_cases hk : k ∈ q.2.completed
    · rw [List.count_eq_one_of_mem (h q (by simp)) hk]
      simp [hk]
      omega
    · rw [List.count_eq_zero.mpr hk]
      simp [hk]

theorem mem_countByTitle_iff {S : Store} (hnod : ∀ q ∈ S, q.2.completed.Nodup)
    (k : String) (n : Nat) :
    (k, n) ∈ countByTitle S ↔
      (∃ q ∈ S, k ∈ q.2.completed) ∧ n = usersCompleted S k := by
  unfold countByTitle
  rw [mem_counts_iff _ (keys_countByTitle_nodup S [] (by simp [countKeys])) k n,
    mem_keys_countByTitle_aux, lookupCount_countByTitle_aux,
    sum_counts_eq_usersCompleted S hnod k]
  simp [countKeys, lookupCount]

/-- C8: `/admin/popular` aggregates completion counts across users (on
reachable stores each user's completed set contributes one per title),
lists exactly the titles some user completed paired with the number of
users who completed them, sorted descending by count with ties by
ascending title; after two different users complete "Flask Basics" the
response is `[{title: "Flask Basics", completed: 2}]`. -/
theorem c8_popular_aggregates (ops : List Op) :
    (∀ p ∈ admin_popular (applyOps ops),
      (∃ q ∈ applyOps ops, p.title ∈ q.2.completed) ∧
        p.completed = usersCompleted (applyOps ops) p.title) ∧
    (∀ title : String, (∃ q ∈ applyOps ops, title ∈ q.2.completed) →
      PopItem.mk title (usersCompleted (applyOps ops) title) ∈
        admin_popular (applyOps ops)) ∧
    (admin_popular (applyOps ops)).Sorted popLe ∧
    admin_popular
      (completeCore (completeCore [] "u1@a.com" "Flask Basics").2
        "u2@a.com" "Flask Basics").2 =
      [⟨"Flask Basics", 2⟩] := by
  have hnod : ∀ q ∈ applyOps ops, q.2.completed.Nodup :=
    fun q hq => (goodU_applyOps ops q hq).2.1
  refine ⟨?_, ?_, ?_, by decide⟩
  · intro p hp
    unfold admin_popular at hp
    rw [List.mem_insertionSort, List.mem_map] at hp
    obtain ⟨⟨k, n⟩, hkn, hpk⟩ := hp
    rw [mem_countByTitle_iff hnod] at hkn
    rw [← hpk]
    exact hkn
  · intro title ht
    unfold admin_popular
    rw [List.mem_insertionSort, List.mem_map]
    exact ⟨(title, usersCompleted (applyOps ops) title),
      (mem_countByTitle_iff hnod title _).mpr ⟨ht, rfl⟩, rfl⟩
  · unfold admin_popular
    exact List.sorted_insertionSort popLe _

theorem c8_popular_aggregates_witness :
    (∃ q ∈ applyOps [Op.completion "u@a.com" "Flask Basics"],
      "Flask Basics" ∈ q.2.completed) ∧
    PopItem.mk "Flask Basics"
        (usersCompleted (applyOps [Op.completion "u@a.com" "Flask Basics"])
          "Flask Basics") ∈
      admin_popular (applyOps [Op.completion "u@a.com" "Flask Basics"]) :=
  ⟨by decide,
   (c8_popular_aggregates [Op.completion "u@a.com" "Flask Basics"]).2.1
     "Flask Basics" (by decide)⟩

/-! ## History boost (C2, C10) -/

theorem sample_titles_nodup : (SAMPLE_RESOURCES.map Resource.title).Nodup := by
  decide

theorem sample_title_unique :
    ∀ r1 ∈ SAMPLE_RESOURCES, ∀ r2 ∈ SAMPLE_RESOURCES, r1.title = r2.title → r1 = r2 := by
  decide

theorem mem_history_boost (recs : List Item) (counts : List (String × Nat)) (x : Item) :
    x ∈ history_boost recs counts ↔
      ∃ r ∈ SAMPLE_RESOURCES, ∃ base : Item,
        recs.find? (fun y => y.title = r.title) = some base ∧
        x = { base with score := base.score +
          (if (tagSet r).any (fun tag => tag ∈ countKeys counts) then 1 else 0) } := by
  unfold history_boost
  rw [List.mem_insertionSort, List.mem_filterMap]
  constructor
  · rintro ⟨r, hr, hx⟩
    rw [Option.map_eq_some'] at hx
    obtain ⟨base, hfind, hbx⟩ := hx
    exact ⟨r, hr, base, hfind, hbx.symm⟩
  · rintro ⟨r, hr, base, hfind, hx⟩
    refine ⟨r, hr, ?_⟩
    rw [hfind, Option.map_some', hx]

theorem find?_property {α : Type} (p : α → Bool) :
    ∀ (l : List α) (a : α), l.find? p = some a → a ∈ l ∧ p a = true
  | [], a, h => by simp [List.find?] at h
  | x :: l, a, h => by
    by_cases hx : p x = true
    · rw [List.find?_cons_of_pos _ hx] at h
      cases Option.some_inj.mp h
      exact ⟨by simp, hx⟩
    · rw [List.find?_cons_of_neg _ (by simpa using hx)] at h
      obtain ⟨hm, hp⟩ := find?_property p l a h
      exact ⟨by simp [hm], hp⟩

theorem find?_title_eq {recs : List Item} {r : Resource} {base : Item}
    (h : recs.find? (fun y => y.title = r.title) = some base) :
    base ∈ recs ∧ base.title = r.title := by
  obtain ⟨hm, hp⟩ := find?_property (fun y => decide (y.title = r.title)) recs base h
  exact ⟨hm, of_decide_eq_true hp⟩

theorem history_boost_titles_nodup (recs : List Item) (counts : List (String × Nat)) :
    ((history_boost recs counts).map Item.title).Nodup := by
  unfold history_boost
  have hperm := (List.perm_insertionSort itemLe
    (SAMPLE_RESOURCES.filterMap (fun r =>
      (recs.find? (fun y => y.title = r.title)).map (fun base =>
        { base with score := base.score +
          (if (tagSet r).any (fun tag => tag ∈ countKeys counts) then 1
            else 0) })))).map Item.title
  refine (hperm.nodup_iff).mpr ?_
  refine List.Sublist.nodup ?_ sample_titles_nodup
  refine map_filterMap_sublist _ Item.title Resource.title ?_ SAMPLE_RESOURCES
  intro a b hg
  rw [Option.map_eq_some'] at hg
  obtain ⟨base, hfind, hbx⟩ := hg
  rw [← hbx]
  exact (find?_title_eq hfind).2

theorem score_item_source {topics : List JVal} {x : Item}
    (hx : x ∈ score_resources_by_topics SAMPLE_RESOURCES topics) :
    ∃ r ∈ SAMPLE_RESOURCES, x.title = r.title ∧
      0 < interScore r (normalized_topics topics) ∧
      x = ⟨r.title, r.description, r.link, interScore r (normalized_topics topics)⟩ := by
  rw [mem_score_iff] at hx
  obtain ⟨-, r, hr, hs, hxe⟩ := hx
  exact ⟨r, hr, by rw [hxe], hs, hxe⟩

/-- C2: when `/recommend` serves an identified user whose topic-frequency
counts are non-empty, every boosted entry stems from a base-scored entry
with the same title, description and link and a flat +1 exactly when some
lowercased tag of the matching catalog resource occurs among the topics
the user has ever searched (presence, not frequency); every base entry
reappears in the boosted list; the boosted list is sorted with the same
comparator; nothing absent from the base list is reintroduced. -/
theorem c2_presence_boost (data : Store) (email : String) (topics : List JVal)
    (_hne : get_user_topic_counts data email ≠ []) :
    (∀ x ∈ history_boost (score_resources_by_topics SAMPLE_RESOURCES topics)
        (get_user_topic_counts data email),
      ∃ b ∈ score_resources_by_topics SAMPLE_RESOURCES topics,
        x.title = b.title ∧ x.description = b.description ∧ x.link = b.link ∧
        x.score = b.score +
          (if ∃ r ∈ SAMPLE_RESOURCES, r.title = b.title ∧
              ∃ tag ∈ tagSet r, tag ∈ (storeGet data email).topics
            then 1 else 0)) ∧
    (∀ b ∈ score_resources_by_topics SAMPLE_RESOURCES topics,
      ∃ x ∈ history_boost (score_resources_by_topics SAMPLE_RESOURCES topics)
          (get_user_topic_counts data email), x.title = b.title) ∧
    (history_boost (score_resources_by_topics SAMPLE_RESOURCES topics)
        (get_user_topic_counts data email)).Sorted itemLe := by
  refine ⟨?_, ?_, ?_⟩
  · intro x hx
    rw [mem_history_boost] at hx
    obtain ⟨r, hr, base, hfind, hx⟩ := hx
    obtain ⟨hbmem, hbtitle⟩ := find?_title_eq hfind
    refine ⟨base, hbmem, by rw [hx], by rw [hx], by rw [hx], ?_⟩
    rw [hx]
    show base.score + _ = base.score + _
    congr 1
    have hiff : ((tagSet r).any
          (fun tag => tag ∈ countKeys (get_user_topic_counts data email)) = true) ↔
        (∃ r' ∈ SAMPLE_RESOURCES, r'.title = base.title ∧
          ∃ tag ∈ tagSet r', tag ∈ (storeGet data email).topics) := by
      rw [List.any_eq_true]
      constructor
      · rintro ⟨tag, htag, hin⟩
        refine ⟨r, hr, hbtitle.symm, tag, htag, ?_⟩
        have hmem := of_decide_eq_true hin
        rwa [show get_user_topic_counts data email =
            topicCounts (storeGet data email).topics from rfl,
          mem_countKeys_topicCounts] at hmem
      · rintro ⟨r', hr', ht', tag, htag, hin⟩
        have hrr : r' = r :=
          sample_title_unique r' hr' r hr (by rw [ht', hbtitle])
        subst hrr
        refine ⟨tag, htag, decide_eq_true ?_⟩
        rwa [show get_user_topic_counts data email =
            topicCounts (storeGet data email).topics from rfl,
          mem_countKeys_topicCounts]
    rw [if_congr hiff rfl rfl]
  · intro b hb
    obtain ⟨r, hr, hbt, hs, hbe⟩ := score_item_source hb
    have hex : ((score_resources_by_topics SAMPLE_RESOURCES topics).find?
        (fun y => y.title = r.title)).isSome := by
      rw [List.find?_isSome]
      exact ⟨b, hb, decide_eq_true hbt⟩
    obtain ⟨base, hfind⟩ := Option.isSome_iff_exists.mp hex
    refine ⟨_, (mem_history_boost _ _ _).mpr ⟨r, hr, base, hfind, rfl⟩, ?_⟩
    show base.title = b.title
    rw [(find?_title_eq hfind).2, hbt]
  · unfold history_boost
    exact List.sorted_insertionSort itemLe _

theorem c2_presence_boost_witness :
    get_user_topic_counts [("u@a.com", ⟨["python"], [], 0⟩)] "u@a.com" ≠ [] ∧
    (history_boost (score_resources_by_topics SAMPLE_RESOURCES [JVal.str "python"])
      (get_user_topic_counts [("u@a.com", ⟨["python"], [], 0⟩)]
        "u@a.com")).Sorted itemLe :=
  ⟨by decide,
   (c2_presence_boost [("u@a.com", ⟨["python"], [], 0⟩)] "u@a.com"
     [JVal.str "python"] (by decide)).2.2⟩

theorem boost_bonus_one {topics : List JVal} {counts : List (String × Nat)}
    {r : Resource} (hs : 0 < interScore r (normalized_topics topics))
    (hsub : ∀ s ∈ normalized_topics topics, s ∈ countKeys counts) :
    ((tagSet r).any (fun tag => tag ∈ countKeys counts)) = true := by
  unfold interScore at hs
  have hne : ((tagSet r).filter
      (fun tag => tag ∈ normalized_topics topics)) ≠ [] := by
    intro hc
    rw [hc] at hs
    simp at hs
  obtain ⟨tag, htag⟩ := List.exists_mem_of_ne_nil _ hne
  have hm := List.mem_filter.mp htag
  rw [List.any_eq_true]
  exact ⟨tag, hm.1, decide_eq_true (hsub tag (of_decide_eq_true hm.2))⟩

theorem itemLe_inc {a b : Item} (h : itemLe a b) :
    itemLe { a with score := a.score + 1 } { b with score := b.score + 1 } := by
  unfold itemLe at *
  rcases h with h | ⟨h1, h2⟩
  · left
    show b.score + 1 < a.score + 1
    omega
  · right
    refine ⟨?_, h2⟩
    show a.score + 1 = b.score + 1
    omega

theorem map_inc_nodup {recs : List Item} (h : (recs.map Item.title).Nodup) :
    (recs.map (fun x => { x with score := x.score + 1 })).Nodup := by
  apply List.Nodup.of_map Item.title
  rw [List.map_map]
  exact h

theorem itemLe_anti_of_titles_nodup {l : List Item} (h : (l.map Item.title).Nodup) :
    ∀ a ∈ l, ∀ b ∈ l, itemLe a b → itemLe b a → a = b := by
  intro a ha b hb hab hba
  have hscore : a.score = b.score := by
    unfold itemLe at hab hba
    rcases hab with h1 | ⟨h1, -⟩ <;> rcases hba with h2 | ⟨h2, -⟩ <;> omega
  have htitle : a.title = b.title := by
    unfold itemLe at hab hba
    rcases hab with h1 | ⟨-, h1⟩
    · omega
    · rcases hba with h2 | ⟨-, h2⟩
      · omega
      · exact strLe_antisymm h1 h2
  exact eq_of_mem_of_nodup_map h ha hb htitle

theorem history_boost_all_present {topics : List JVal} {counts : List (String × Nat)}
    (hsub : ∀ s ∈ normalized_topics topics, s ∈ countKeys counts) :
    history_boost (score_resources_by_topics SAMPLE_RESOURCES topics) counts =
      (score_resources_by_topics SAMPLE_RESOURCES topics).map
        (fun x => { x with score := x.score + 1 }) := by
  have hrect : ((score_resources_by_topics SAMPLE_RESOURCES topics).map
      Item.title).Nodup := score_titles_nodup _ _ sample_titles_nodup
  have hmem : ∀ a : Item,
      a ∈ history_boost (score_resources_by_topics SAMPLE_RESOURCES topics) counts ↔
      a ∈ (score_resources_by_topics SAMPLE_RESOURCES topics).map
        (fun x => { x with score := x.score + 1 }) := by
    intro a
    rw [mem_history_boost, List.mem_map]
    constructor
    · rintro ⟨r, hr, base, hfind, ha⟩
      obtain ⟨hbmem, hbtitle⟩ := find?_title_eq hfind
      obtain ⟨r', hr', hbt', hs', hbe'⟩ := score_item_source hbmem
      have hrr : r' = r := sample_title_unique r' hr' r hr (by rw [← hbt', hbtitle])
      subst hrr
      have hbonus := boost_bonus_one hs' hsub
      refine ⟨base, hbmem, ?_⟩
      rw [ha, if_pos hbonus]
    · rintro ⟨b, hb, ha⟩
      obtain ⟨r, hr, hbt, hs, hbe⟩ := score_item_source hb
      have hex : ((score_resources_by_topics SAMPLE_RESOURCES topics).find?
          (fun y => y.title = r.title)).isSome := by
        rw [List.find?_isSome]
        exact ⟨b, hb, decide_eq_true hbt⟩
      obtain ⟨base, hfind⟩ := Option.isSome_iff_exists.mp hex
      obtain ⟨hbmem, hbtitle⟩ := find?_title_eq hfind
      have hbb : base = b :=
        eq_of_mem_of_nodup_map hrect hbmem hb (by rw [hbtitle, hbt])
      subst hbb
      have hbonus := boost_bonus_one hs hsub
      exact ⟨r, hr, base, hfind, by rw [if_pos hbonus, ← ha]⟩
  have hnodup1 : (history_boost
      (score_resources_by_topics SAMPLE_RESOURCES topics) counts).Nodup :=
    (history_boost_titles_nodup _ counts).of_map
  have hnodup2 := map_inc_nodup hrect
  have hperm := (List.perm_ext_iff_of_nodup hnodup1 hnodup2).mpr hmem
  have hsort1 : (history_boost
      (score_resources_by_topics SAMPLE_RESOURCES topics) counts).Sorted itemLe := by
    unfold history_boost
    exact List.sorted_insertionSort itemLe _
  have hsort2 : ((score_resources_by_topics SAMPLE_RESOURCES topics).map
      (fun x => { x with score := x.score + 1 })).Sorted itemLe :=
    (score_sorted SAMPLE_RESOURCES topics).map _ (fun a b h => itemLe_inc h)
  exact eq_of_sorted_of_perm hperm hsort1 hsort2
    (itemLe_anti_of_titles_nodup (history_boost_titles_nodup _ counts))

/-- C10: in a single `/recommend` request that supplies a non-empty email
and at least one valid topic, the request's own topics reach the user's
history before the counts are read, so every base-scored resource earns
the +1 boost: the returned list is exactly the base scored list with
every score raised by one, and the relative order is unchanged. -/
theorem c10_uniform_boost (data : Store) (email : String) (topics : List JVal)
    (hemail : email ≠ "") (hvalid : ∃ t ∈ topics, (normTopic t).isSome) :
    (recommendLogic data email topics).1 =
      (score_resources_by_topics SAMPLE_RESOURCES topics).map
        (fun x => { x with score := x.score + 1 }) := by
  have hstore : storeGet (record_user_topics data email topics) email =
      { storeGet data email with
        topics := (storeGet data email).topics ++ topics.filterMap normTopic } := by
    unfold record_user_topics
    exact storeGet_storeSet_same _ _ _
  have hnewne : topics.filterMap normTopic ≠ [] := by
    obtain ⟨t, ht, hsome⟩ := hvalid
    obtain ⟨s, hsv⟩ := Option.isSome_iff_exists.mp hsome
    intro hc
    have hmm : s ∈ topics.filterMap normTopic := List.mem_filterMap.mpr ⟨t, ht, hsv⟩
    rw [hc] at hmm
    simp at hmm
  have hcounts_ne :
      get_user_topic_counts (record_user_topics data email topics) email ≠ [] := by
    unfold get_user_topic_counts
    rw [hstore, Ne, topicCounts_eq_nil_iff]
    simp [hnewne]
  have hlogic : (recommendLogic data email topics).1 =
      history_boost (score_resources_by_topics SAMPLE_RESOURCES topics)
        (get_user_topic_counts (record_user_topics data email topics) email) := by
    unfold recommendLogic
    dsimp only
    rw [if_neg hemail]
    dsimp only
    rw [if_neg hcounts_ne]
  rw [hlogic]
  refine history_boost_all_present ?_
  intro s hs
  unfold get_user_topic_counts
  rw [hstore]
  show s ∈ countKeys (topicCounts _)
  rw [mem_countKeys_topicCounts]
  refine List.mem_append.mpr (Or.inr ?_)
  unfold normalized_topics at hs
  exact List.mem_dedup.mp hs

theorem c10_uniform_boost_witness :
    ("u@a.com" : String) ≠ "" ∧
    (∃ t ∈ [JVal.str "python"], (normTopic t).isSome) ∧
    (recommendLogic [] "u@a.com" [JVal.str "python"]).1 =
      (score_resources_by_topics SAMPLE_RESOURCES [JVal.str "python"]).map
        (fun x => { x with score := x.score + 1 }) :=
  ⟨by decide, by decide,
   c10_uniform_boost [] "u@a.com" [JVal.str "python"] (by decide) (by decide)⟩

/-- C9 counterexample: in the body `{"topics": "", "topic": "python"}` the
`topics` value is present and is not a list, yet `/recommend` answers
with a recommendations payload instead of 400 (the falsy `topics` is
silently replaced by `[topic]`). -/
theorem c9_counterexample :
    (jGet [("topics", JVal.str ""), ("topic", JVal.str "python")] "topics").isSome
        = true ∧
    isArr ((jGet [("topics", JVal.str ""), ("topic", JVal.str "python")]
        "topics").getD JVal.null) = false ∧
    isBad (recommend [] [("topics", JVal.str ""), ("topic", JVal.str "python")])
        = false := by
  refine ⟨rfl, rfl, ?_⟩
  decide

/-- C9 (amended): `/recommend` accepts topics as an array in `topics` or a
single string in `topic`, and answers 400 exactly when a `topics` value
is present, is not a list, and is not replaced by the single-`topic`
fallback — the fallback fires precisely when `topics` is falsy and
`topic` is a string, and then the request succeeds. -/
theorem c9_topics_validation (data : Store) (body : List (String × JVal))
    (_hemail : emailOk body = true) :
    (isBad (recommend data body) = topicsRejected body) ∧
    (∀ xs : List JVal, xs ≠ [] → jGet body "topics" = some (JVal.arr xs) →
      recommend data body =
        RecResult.ok (recommendLogic data (emailOf body) xs).1
          (recommendLogic data (emailOf body) xs).2) ∧
    (∀ s : String, jGet body "topics" = none →
      jGet body "topic" = some (JVal.str s) →
      recommend data body =
        RecResult.ok (recommendLogic data (emailOf body) [JVal.str s]).1
          (recommendLogic data (emailOf body) [JVal.str s]).2) := by
  refine ⟨?_, ?_, ?_⟩
  · unfold recommend topicsRejected
    rcases h1 : jGet body "topics" with _ | v
    · rcases h2 : jGet body "topic" with _ | w
      · simp [truthy, isBad]
      · rcases w with _ | s | n | xs <;> simp [truthy, isBad]
    · rcases h2 : jGet body "topic" with _ | w
      · rcases v with _ | s | n | xs
        · simp [truthy, isBad, isArr, isStrOpt]
        · by_cases hs : s = "" <;> simp [truthy, isBad, isArr, isStrOpt, hs]
        · by_cases hn : n = 0 <;> simp [truthy, isBad, isArr, isStrOpt, hn]
        · rcases xs with _ | ⟨x, xs⟩ <;> simp [truthy, isBad, isArr, isStrOpt]
      · rcases v with _ | s | n | xs
        · rcases w with _ | s' | n' | xs' <;>
            simp [truthy, isBad, isArr, isStrOpt]
        · rcases w with _ | s' | n' | xs' <;>
            · by_cases hs : s = "" <;> simp [truthy, isBad, isArr, isStrOpt, hs]
        · rcases w with _ | s' | n' | xs' <;>
            · by_cases hn : n = 0 <;> simp [truthy, isBad, isArr, isStrOpt, hn]
        · rcases w with _ | s' | n' | xs' <;>
            · rcases xs with _ | ⟨x, xs⟩ <;> simp [truthy, isBad, isArr, isStrOpt]
  · intro xs hxs h1
    unfold recommend
    rw [h1]
    have ht : truthy (JVal.arr xs) = true := by
      simpa [truthy] using hxs
    simp [ht]
  · intro s h1 h2
    unfold recommend
    rw [h1, h2]
    simp [truthy]

theorem c9_topics_validation_witness :
    emailOk [("topics", JVal.arr [JVal.str "python"])] = true ∧
    isBad (recommend [] [("topics", JVal.arr [JVal.str "python"])]) =
      topicsRejected [("topics", JVal.arr [JVal.str "python"])] :=
  ⟨rfl, (c9_topics_validation [] [("topics", JVal.arr [JVal.str "python"])] rfl).1⟩
